import Mathlib

/-!
Verification of the onset-detection and beat-alignment core of the
`rhythm_coach` repository (`quick_start_experiment/analyze_new_recordings.py`
and `quick_start_experiment/analyze_drum_practice.py`), embedded over exact
rationals.  Waveforms, onset envelopes, times and thresholds are `List ℚ` / `ℚ`;
Python's `int()` is truncation toward zero; NumPy's NaN (mean of an empty
array) is modeled by `Option`.
-/

namespace RhythmCoach

/-- Python `int()` applied to a rational value: truncation toward zero. -/
def ratTrunc (q : ℚ) : ℤ := if 0 ≤ q then ⌊q⌋ else -⌊-q⌋

/-! ### Noise profiler — `measure_noise_floor` (analyze_new_recordings.py) -/

/-- `measure_noise_floor(y, sr)` up to the final `np.sqrt`:
`noise_samples = min(sr, len(y))`, `noise_segment = y[:noise_samples]`,
and the mean of the squared segment samples.  `np.mean` of an empty array is
NaN, modeled as `none`; the source returns the square root of this value
(applied at the statement level, since the square root is the only
non-rational step and is injective on nonnegatives). -/
def measure_noise_floor_sq (y : List ℚ) (sr : ℕ) : Option ℚ :=
  let noise_samples := min sr y.length
  let noise_segment := y.take noise_samples
  if noise_segment.length = 0 then none
  else some ((noise_segment.map fun v => v * v).sum / (noise_segment.length : ℚ))

/-- Modelled from the spec (§4.1): the "first one second of samples (or the
whole waveform if shorter than one second)" whose RMS the Noise Profiler
returns. -/
def specNoiseSegment (y : List ℚ) (sr : ℕ) : List ℚ :=
  if y.length < sr then y else y.take sr

/-! ### Adaptive threshold — `calculate_adaptive_threshold` -/

/-- `calculate_adaptive_threshold(noise_floor_rms, noise_floor_multiplier,
minimum_threshold)`: `max(noise_floor_rms * noise_floor_multiplier + 0.1,
minimum_threshold)`.  Source defaults: multiplier `3.0`, minimum `0.15`. -/
def calculate_adaptive_threshold (noise_floor_rms : ℚ)
    (noise_floor_multiplier : ℚ) (minimum_threshold : ℚ) : ℚ :=
  max (noise_floor_rms * noise_floor_multiplier + 1 / 10) minimum_threshold

/-! ### Peak picker — `pick_peaks` (analyze_new_recordings.py) -/

/-- `min_frames = int((min_separation_ms / 1000.0) * sr / hop_length)`. -/
def minFramesOf (min_separation_ms : ℚ) (sr hop_length : ℕ) : ℤ :=
  ratTrunc (min_separation_ms / 1000 * (sr : ℚ) / (hop_length : ℚ))

/-- The candidate loop of `pick_peaks`: for `i in range(1, len(onset_env)-1)`,
keep `(i, onset_env[i])` when `onset_env[i] >= strength_threshold`,
`onset_env[i] > onset_env[i-1]` and `onset_env[i] >= onset_env[i+1]`. -/
def candidates (onset_env : List ℚ) (strength_threshold : ℚ) : List (ℕ × ℚ) :=
  (List.range' 1 (onset_env.length - 2)).filterMap fun i =>
    if strength_threshold ≤ onset_env.getD i 0 ∧
        onset_env.getD (i - 1) 0 < onset_env.getD i 0 ∧
        onset_env.getD (i + 1) 0 ≤ onset_env.getD i 0 then
      some (i, onset_env.getD i 0)
    else none

/-- One step of the stable insertion sort implementing
`candidates.sort(key=lambda x: x[1], reverse=True)`: `x` is placed before the
first element whose strength is `≤` its own, so elements of equal strength
keep their original (chronological) order, exactly as Python's stable sort. -/
def insertDesc (x : ℕ × ℚ) : List (ℕ × ℚ) → List (ℕ × ℚ)
  | [] => [x]
  | y :: ys => if y.2 ≤ x.2 then x :: y :: ys else y :: insertDesc x ys

/-- Stable sort of the candidate list by strength descending
(`candidates.sort(key=lambda x: x[1], reverse=True)`). -/
def sortDesc : List (ℕ × ℚ) → List (ℕ × ℚ)
  | [] => []
  | x :: xs => insertDesc x (sortDesc xs)

/-- The `too_close` test of `pick_peaks`: some already selected frame lies at
distance `< min_frames`. -/
def tooClose (min_frames : ℤ) (frame : ℕ) (selected : List ℕ) : Bool :=
  selected.any fun s => |(frame : ℤ) - (s : ℤ)| < min_frames

/-- The greedy selection loop of `pick_peaks`: traverse the sorted candidates,
appending each frame that is not too close to every previously selected one. -/
def selectGo (min_frames : ℤ) : List (ℕ × ℚ) → List ℕ → List ℕ
  | [], selected => selected
  | c :: cs, selected =>
    if tooClose min_frames c.1 selected then selectGo min_frames cs selected
    else selectGo min_frames cs (selected ++ [c.1])

/-- `selected_frames` as computed by `pick_peaks` before the chronological sort. -/
def selectFrames (min_frames : ℤ) (cands : List (ℕ × ℚ)) : List ℕ :=
  selectGo min_frames cands []

/-- Two frames at distance at least `min_frames` — the separation the greedy
selection guarantees between any two selected frames. -/
def farApart (min_frames : ℤ) (a b : ℕ) : Prop :=
  min_frames ≤ |(a : ℤ) - (b : ℤ)|

/-- Insertion step for the chronological sort `selected_frames.sort()`. -/
def insertAsc (x : ℕ) : List ℕ → List ℕ
  | [] => [x]
  | y :: ys => if x ≤ y then x :: y :: ys else y :: insertAsc x ys

/-- Ascending sort of the selected frames (`selected_frames.sort()`). -/
def sortAsc : List ℕ → List ℕ
  | [] => []
  | x :: xs => insertAsc x (sortAsc xs)

/-- `pick_peaks(onset_env, threshold, sr, hop_length, min_separation_ms,
strength_multiplier)`, returning `(onset_times, selected_frames)` with
`librosa.frames_to_time` unfolded to `frame * hop_length / sr`. -/
def pick_peaks (onset_env : List ℚ) (threshold : ℚ) (sr : ℕ)
    (hop_length : ℕ) (min_separation_ms : ℚ) (strength_multiplier : ℚ) :
    List ℚ × List ℕ :=
  let strength_threshold := threshold * strength_multiplier
  let min_frames := minFramesOf min_separation_ms sr hop_length
  let cands := candidates onset_env strength_threshold
  let sorted := sortDesc cands
  let selected := sortAsc (selectFrames min_frames sorted)
  (selected.map fun f : ℕ => (f : ℚ) * (hop_length : ℚ) / (sr : ℚ), selected)

/-! Spec-side peak picking (§4.4 steps 3–4): candidates ordered by strength
descending with ties broken by earliest frame index, then greedy
non-maximum suppression rejecting a candidate iff its frame distance to some
already-accepted candidate is `< minFrames`. -/

/-- The spec's candidate order: strength strictly greater first, ties by
earliest frame index. -/
def specBefore (a b : ℕ × ℚ) : Prop := b.2 < a.2 ∨ (a.2 = b.2 ∧ a.1 < b.1)

instance (a b : ℕ × ℚ) : Decidable (specBefore a b) := by
  unfold specBefore; infer_instance

/-- Insertion step for the spec-side order. -/
def insertLex (x : ℕ × ℚ) : List (ℕ × ℚ) → List (ℕ × ℚ)
  | [] => [x]
  | y :: ys => if specBefore x y then x :: y :: ys else y :: insertLex x ys

/-- Sort by the spec-side order (strength descending, ties by earliest frame). -/
def sortLex : List (ℕ × ℚ) → List (ℕ × ℚ)
  | [] => []
  | x :: xs => insertLex x (sortLex xs)

/-- The spec's greedy non-maximum suppression over an ordered frame list:
a frame is rejected iff its distance to some already-accepted frame is
`< minFrames`. -/
def nmsGo (min_frames : ℤ) (accepted : List ℕ) : List ℕ → List ℕ
  | [] => accepted
  | f :: fs =>
    if ∃ a ∈ accepted, |(f : ℤ) - (a : ℤ)| < min_frames then
      nmsGo min_frames accepted fs
    else nmsGo min_frames (accepted ++ [f]) fs

/-- Spec-side selection (§4.4): sort candidates strength-first with
earliest-frame tie-break, then greedily suppress. -/
def specSelect (min_frames : ℤ) (cands : List (ℕ × ℚ)) : List ℕ :=
  nmsGo min_frames [] ((sortLex cands).map Prod.fst)

/-! ### Beat grid generator — `generate_expected_beats`
(analyze_drum_practice.py) -/

/-- `generate_expected_beats(bpm, duration, start_offset)`:
`beat_interval = 60.0 / bpm` raises ZeroDivisionError when `bpm = 0`
(modeled as `none`); otherwise `num_beats = int(duration / beat_interval)` and
the result is `[start_offset + i * beat_interval for i in range(num_beats)]`
(`range` of a nonpositive count is empty). -/
def generate_expected_beats (bpm duration start_offset : ℚ) : Option (List ℚ) :=
  if bpm = 0 then none
  else
    let beat_interval := 60 / bpm
    let num_beats := ratTrunc (duration / beat_interval)
    some ((List.range num_beats.toNat).map fun i : ℕ =>
      start_offset + (i : ℚ) * beat_interval)

/-! ### Onset-to-beat matcher — `match_onsets_to_beats`
(analyze_drum_practice.py) -/

/-- `onsets[np.argmin(np.abs(onsets - beat_time))]`: the onset closest to the
beat, with ties resolved to the earliest position exactly as `np.argmin`
returns the first index attaining the minimum. -/
def closestOnset (onsets : List ℚ) (beat_time : ℚ) : ℚ :=
  match onsets with
  | [] => 0
  | o :: os =>
    match os with
    | [] => o
    | _ :: _ =>
      if |o - beat_time| ≤ |closestOnset os beat_time - beat_time| then o
      else closestOnset os beat_time

/-- The minimum of `|onset - beat_time|` over a nonempty onset list
(`0` for the empty list); the distance `np.argmin` minimizes. -/
def minAbsDist (onsets : List ℚ) (beat_time : ℚ) : ℚ :=
  match onsets with
  | [] => 0
  | o :: os =>
    match os with
    | [] => |o - beat_time|
    | _ :: _ => min (|o - beat_time|) (minAbsDist os beat_time)

/-- `match_onsets_to_beats(onsets, expected_beats, tolerance)`: per expected
beat, skip when there are no onsets, otherwise take the closest onset and
record `(closest - beat) * 1000` and the matched onset when
`|closest - beat| <= tolerance`.  Returns `(timing_errors, matched_onsets)`. -/
def match_onsets_to_beats (onsets : List ℚ) (expected_beats : List ℚ)
    (tolerance : ℚ) : List ℚ × List ℚ :=
  match expected_beats with
  | [] => ([], [])
  | b :: bs =>
    let rest := match_onsets_to_beats onsets bs tolerance
    if onsets.length = 0 then rest
    else
      let closest_time := closestOnset onsets b
      let time_diff := closest_time - b
      if |time_diff| ≤ tolerance then
        (time_diff * 1000 :: rest.1, closest_time :: rest.2)
      else rest

/-! ### Timing statistics — inline aggregation in `analyze_practice_session` -/

/-- `np.mean(timing_errors)`. -/
def avg_error (timing_errors : List ℚ) : ℚ :=
  timing_errors.sum / (timing_errors.length : ℚ)

/-- `np.sum(timing_errors < 0)`: the number of strictly negative errors. -/
def early_hits (timing_errors : List ℚ) : ℕ :=
  (timing_errors.map fun e => decide (e < 0)).count true

/-- `np.sum(timing_errors > 0)`: the number of strictly positive errors. -/
def late_hits (timing_errors : List ℚ) : ℕ :=
  (timing_errors.map fun e => decide (0 < e)).count true

/-- `np.sum(np.abs(timing_errors) < 10)`: errors strictly inside the 10 ms
on-time band. -/
def on_time_hits (timing_errors : List ℚ) : ℕ :=
  (timing_errors.map fun e => decide (|e| < 10)).count true

/-! ## Helper lemmas -/

theorem ratTrunc_of_nonneg {q : ℚ} (h : 0 ≤ q) : ratTrunc q = ⌊q⌋ := if_pos h

theorem ratTrunc_nonpos {q : ℚ} (h : q ≤ 0) : ratTrunc q ≤ 0 := by
  unfold ratTrunc
  split
  · next h0 =>
    have hq : q = 0 := le_antisymm h h0
    simp [hq]
  · have h1 : (0 : ℤ) ≤ ⌊-q⌋ := Int.floor_nonneg.mpr (by linarith)
    omega

/-! ## C3 — frame-count conversion -/

/-- C3 counterexample: at `min_separation_ms = 50`, `sr = 48000`, `hop = 512`
the exact frame count is `4.6875`; the code truncates to `4`, while rounding
to the nearest integer as the claim states gives `5`. -/
theorem minFrames_counterexample :
    minFramesOf 50 48000 512 ≠ round ((50 : ℚ) / 1000 * 48000 / 512) := by
  have h1 : minFramesOf 50 48000 512 = 4 := by
    norm_num [minFramesOf, ratTrunc]
  have h2 : round ((50 : ℚ) / 1000 * 48000 / 512) = 5 := by
    norm_num [round_eq]
  omega

/-- C3 amended: the Peak Picker converts the minimum separation to
`int((min_separation_ms / 1000) * sr / hop)`, i.e. truncation toward zero,
which for the nonnegative quantity involved is the floor — not rounding to
nearest. -/
theorem minFrames_eq_floor (min_separation_ms : ℚ) (sr hop : ℕ)
    (h : 0 ≤ min_separation_ms) :
    minFramesOf min_separation_ms sr hop =
      ⌊min_separation_ms / 1000 * (sr : ℚ) / (hop : ℚ)⌋ :=
  ratTrunc_of_nonneg (by positivity)

/-- Witness for `minFrames_eq_floor` at the source defaults. -/
theorem minFrames_eq_floor_holds :
    (0 : ℚ) ≤ 50 ∧
      minFramesOf 50 44100 512 = ⌊(50 : ℚ) / 1000 * (44100 : ℚ) / (512 : ℚ)⌋ :=
  ⟨by norm_num, minFrames_eq_floor 50 44100 512 (by norm_num)⟩

/-! ## C5 — adaptive threshold -/

/-- C5: with the source defaults (multiplier 3, minimum 0.15 = 3/20, additive
0.1 = 1/10), the adaptive threshold is `max(noiseFloor * 3 + 0.1, 0.15)`, it
never falls below 0.15, a zero noise floor yields exactly 0.15, and the peak
threshold `threshold * 1.5` is strictly greater than the threshold. -/
theorem calculate_adaptive_threshold_spec (noiseFloor : ℚ) (h : 0 ≤ noiseFloor) :
    calculate_adaptive_threshold noiseFloor 3 (3 / 20) =
        max (noiseFloor * 3 + 1 / 10) (3 / 20) ∧
      3 / 20 ≤ calculate_adaptive_threshold noiseFloor 3 (3 / 20) ∧
      calculate_adaptive_threshold 0 3 (3 / 20) = 3 / 20 ∧
      calculate_adaptive_threshold noiseFloor 3 (3 / 20) <
        calculate_adaptive_threshold noiseFloor 3 (3 / 20) * (3 / 2) := by
  refine ⟨rfl, le_max_right _ _, by norm_num [calculate_adaptive_threshold], ?_⟩
  have h0 : (3 : ℚ) / 20 ≤ calculate_adaptive_threshold noiseFloor 3 (3 / 20) :=
    le_max_right _ _
  nlinarith

/-- Witness for `calculate_adaptive_threshold_spec` at noise floor 1. -/
theorem calculate_adaptive_threshold_spec_holds :
    (0 : ℚ) ≤ 1 ∧
      (calculate_adaptive_threshold 1 3 (3 / 20) =
          max ((1 : ℚ) * 3 + 1 / 10) (3 / 20) ∧
        3 / 20 ≤ calculate_adaptive_threshold 1 3 (3 / 20) ∧
        calculate_adaptive_threshold 0 3 (3 / 20) = 3 / 20 ∧
        calculate_adaptive_threshold 1 3 (3 / 20) <
          calculate_adaptive_threshold 1 3 (3 / 20) * (3 / 2)) :=
  ⟨by norm_num, calculate_adaptive_threshold_spec 1 (by norm_num)⟩

/-! ## C10 — noise profiler -/

/-- C10 counterexample: on the empty waveform the code computes `np.mean` of
an empty array, which is NaN (modeled `none`), not the RMS value 0 the claim
states. -/
theorem measure_noise_floor_empty_counterexample :
    measure_noise_floor_sq [] 44100 ≠ some 0 := by
  simp [measure_noise_floor_sq]

/-- C10 amended: for `sr > 0` and a nonempty waveform the Noise Profiler's
mean square is taken over exactly the first `min(sr, len(y))` samples, which
coincide with the spec's "first one second of samples (or the whole waveform
if shorter)"; on the empty waveform `np.mean` of an empty slice is NaN
(`none`), not 0. -/
theorem measure_noise_floor_spec (y : List ℚ) (sr : ℕ) (hsr : 0 < sr) :
    (y ≠ [] → measure_noise_floor_sq y sr =
        some (((specNoiseSegment y sr).map fun v => v * v).sum /
          ((specNoiseSegment y sr).length : ℚ))) ∧
      measure_noise_floor_sq [] sr = none := by
  constructor
  · intro hy
    have hlen : 0 < y.length := List.length_pos.mpr hy
    have hseg : y.take (min sr y.length) = specNoiseSegment y sr := by
      unfold specNoiseSegment
      rcases lt_or_le y.length sr with h | h
      · rw [if_pos h, min_eq_right h.le, List.take_length]
      · rw [if_neg (not_lt.mpr h), min_eq_left h]
    have hlen2 : (y.take (min sr y.length)).length = min sr y.length := by
      rw [List.length_take, min_assoc, min_self]
    have hpos : 0 < min sr y.length := lt_min hsr hlen
    have hstep : measure_noise_floor_sq y sr =
        if (y.take (min sr y.length)).length = 0 then none
        else some (((y.take (min sr y.length)).map fun v => v * v).sum /
          ((y.take (min sr y.length)).length : ℚ)) := rfl
    rw [hstep, hseg, if_neg (by rw [← hseg, hlen2]; omega)]
  · simp [measure_noise_floor_sq]

/-- Witness for `measure_noise_floor_spec` on a two-sample waveform. -/
theorem measure_noise_floor_spec_holds :
    (0 < 44100 ∧ ([(1 : ℚ) / 2, 1 / 2] ≠ [])) ∧
      measure_noise_floor_sq [(1 : ℚ) / 2, 1 / 2] 44100 =
        some (((specNoiseSegment [(1 : ℚ) / 2, 1 / 2] 44100).map
            fun v => v * v).sum /
          ((specNoiseSegment [(1 : ℚ) / 2, 1 / 2] 44100).length : ℚ)) :=
  ⟨⟨by norm_num, by simp⟩,
    (measure_noise_floor_spec [(1 : ℚ) / 2, 1 / 2] 44100 (by norm_num)).1
      (by simp)⟩

/-! ## C7 — beat grid generator on nonpositive bpm -/

/-- C7 counterexample: at `bpm = -120`, `duration = 2`, `offset = 0` the
generator does not fail; it returns a normal (empty) beat list. -/
theorem generate_expected_beats_neg_counterexample :
    generate_expected_beats (-120) 2 0 = some [] ∧
      generate_expected_beats (-120) 2 0 ≠ none := by
  have h1 : ((2 : ℚ) / (60 / (-120 : ℚ))) = -4 := by norm_num
  have h : generate_expected_beats (-120) 2 0 = some [] := by
    simp only [generate_expected_beats, ratTrunc, h1]
    norm_num
  exact ⟨h, by simp [h]⟩

/-- C7 amended: there is no InvalidParameter validation.  For `bpm < 0` and
`duration ≥ 0` the generator silently returns an empty beat grid, and for
`bpm = 0` it raises ZeroDivisionError (`none`) rather than an
InvalidParameter error. -/
theorem generate_expected_beats_nonpositive_bpm (bpm duration start_offset : ℚ)
    (hb : bpm < 0) (hd : 0 ≤ duration) :
    generate_expected_beats bpm duration start_offset = some [] ∧
      generate_expected_beats 0 duration start_offset = none := by
  constructor
  · have hbne : bpm ≠ 0 := ne_of_lt hb
    have hint : 60 / bpm < 0 := div_neg_of_pos_of_neg (by norm_num) hb
    have hq : duration / (60 / bpm) ≤ 0 :=
      div_nonpos_of_nonneg_of_nonpos hd hint.le
    have ht : ratTrunc (duration / (60 / bpm)) ≤ 0 := ratTrunc_nonpos hq
    have htn : (ratTrunc (duration / (60 / bpm))).toNat = 0 :=
      Int.toNat_eq_zero.mpr ht
    simp only [generate_expected_beats, if_neg hbne, htn]
    simp
  · simp [generate_expected_beats]

/-- Witness for `generate_expected_beats_nonpositive_bpm`. -/
theorem generate_expected_beats_nonpositive_bpm_holds :
    ((-120 : ℚ) < 0 ∧ (0 : ℚ) ≤ 2) ∧
      (generate_expected_beats (-120) 2 0 = some [] ∧
        generate_expected_beats 0 2 0 = none) :=
  ⟨⟨by norm_num, by norm_num⟩,
    generate_expected_beats_nonpositive_bpm (-120) 2 0 (by norm_num)
      (by norm_num)⟩

/-! ## C8 — beat grid generator on valid input -/

/-- C8: for `bpm > 0`, `duration ≥ 0`, `offset ≥ 0` the generator returns
exactly `floor(duration / (60/bpm))` times, the `i`-th being
`offset + i * (60/bpm)`, consecutive entries differing by exactly `60/bpm`;
in particular `bpm = 120`, `duration = 2`, `offset = 0` yields
`[0, 1/2, 1, 3/2]`. -/
theorem generate_expected_beats_spec (bpm duration start_offset : ℚ)
    (hb : 0 < bpm) (hd : 0 ≤ duration) (ho : 0 ≤ start_offset) :
    ∃ l, generate_expected_beats bpm duration start_offset = some l ∧
      l.length = (⌊duration / (60 / bpm)⌋).toNat ∧
      (∀ i, i < l.length →
        l.getD i 0 = start_offset + (i : ℚ) * (60 / bpm)) ∧
      l.Chain' (fun a b => b - a = 60 / bpm) ∧
      generate_expected_beats 120 2 0 = some [0, 1 / 2, 1, 3 / 2] := by
  have hbne : bpm ≠ 0 := ne_of_gt hb
  have hq : 0 ≤ duration / (60 / bpm) := by positivity
  refine ⟨(List.range (⌊duration / (60 / bpm)⌋).toNat).map
      fun i : ℕ => start_offset + (i : ℚ) * (60 / bpm), ?_, ?_, ?_, ?_, ?_⟩
  · simp only [generate_expected_beats, if_neg hbne, ratTrunc_of_nonneg hq]
  · simp
  · intro i hi
    simp only [List.length_map, List.length_range] at hi
    rw [List.getD_eq_getElem _ _ (by simpa using hi)]
    simp
  · rw [List.chain'_map, List.chain'_iff_get]
    intro i h
    simp only [List.get_eq_getElem, List.getElem_range]
    push_cast
    ring
  · have h1 : ((2 : ℚ) / (60 / (120 : ℚ))) = 4 := by norm_num
    have h2 : ratTrunc ((2 : ℚ) / (60 / (120 : ℚ))) = 4 := by
      rw [ratTrunc_of_nonneg (by norm_num), h1]
      norm_num
    have h3 : List.range (Int.toNat 4) = [0, 1, 2, 3] := by decide
    simp only [generate_expected_beats, h2, h3]
    norm_num

/-- Witness for `generate_expected_beats_spec` at the spec's perfect-grid
scenario. -/
theorem generate_expected_beats_spec_holds :
    ((0 : ℚ) < 120 ∧ (0 : ℚ) ≤ 2 ∧ (0 : ℚ) ≤ 0) ∧
      ∃ l, generate_expected_beats 120 2 0 = some l ∧
        l.length = (⌊(2 : ℚ) / (60 / 120)⌋).toNat ∧
        (∀ i, i < l.length → l.getD i 0 = 0 + (i : ℚ) * (60 / 120)) ∧
        l.Chain' (fun a b => b - a = 60 / 120) ∧
        generate_expected_beats 120 2 0 = some [0, 1 / 2, 1, 3 / 2] :=
  ⟨⟨by norm_num, by norm_num, by norm_num⟩,
    generate_expected_beats_spec 120 2 0 (by norm_num) (by norm_num)
      (by norm_num)⟩

/-! ## C6 — onset-to-beat matcher -/

theorem closestOnset_mem (onsets : List ℚ) (b : ℚ) (h : onsets ≠ []) :
    closestOnset onsets b ∈ onsets := by
  induction onsets with
  | nil => exact absurd rfl h
  | cons o os ih =>
    cases os with
    | nil => simp [closestOnset]
    | cons o2 os2 =>
      rw [closestOnset]
      split
      · exact List.mem_cons_self _ _
      · exact List.mem_cons_of_mem _ (ih (by simp))

theorem abs_closestOnset (onsets : List ℚ) (b : ℚ) (h : onsets ≠ []) :
    |closestOnset onsets b - b| = minAbsDist onsets b := by
  induction onsets with
  | nil => exact absurd rfl h
  | cons o os ih =>
    cases os with
    | nil => simp [closestOnset, minAbsDist]
    | cons o2 os2 =>
      have ih2 := ih (by simp)
      rw [closestOnset, minAbsDist]
      split
      · next hle =>
        rw [min_eq_left (ih2 ▸ hle)]
      · next hgt =>
        rw [← ih2, min_eq_right (le_of_lt (not_le.mp (ih2 ▸ hgt)))]

theorem minAbsDist_le (onsets : List ℚ) (b o : ℚ) (ho : o ∈ onsets) :
    minAbsDist onsets b ≤ |o - b| := by
  induction onsets with
  | nil => simp at ho
  | cons x os ih =>
    cases os with
    | nil =>
      have hx : o = x := by simpa using ho
      subst hx
      simp [minAbsDist]
    | cons y os2 =>
      rw [minAbsDist]
      rcases List.mem_cons.mp ho with h | h
      · subst h
        exact min_le_left _ _
      · exact le_trans (min_le_right _ _) (ih h)

theorem match_onsets_to_beats_nil (beats : List ℚ) (tolerance : ℚ) :
    match_onsets_to_beats [] beats tolerance = ([], []) := by
  induction beats with
  | nil => rfl
  | cons b bs ih => simp [match_onsets_to_beats, ih]

theorem match_fst_eq (onsets beats : List ℚ) (tolerance : ℚ) :
    (match_onsets_to_beats onsets beats tolerance).1 =
      beats.filterMap fun b =>
        if onsets.length ≠ 0 ∧ minAbsDist onsets b ≤ tolerance then
          some ((closestOnset onsets b - b) * 1000)
        else none := by
  induction beats with
  | nil => rfl
  | cons b bs ih =>
    rw [match_onsets_to_beats, List.filterMap_cons]
    by_cases h0 : onsets.length = 0
    · rw [if_pos h0, if_neg (by simp [h0]), ih]
    · have hne : onsets ≠ [] := by
        intro hx
        exact h0 (by simp [hx])
      rw [if_neg h0]
      by_cases hd : |closestOnset onsets b - b| ≤ tolerance
      · rw [if_pos hd,
          if_pos ⟨h0, (abs_closestOnset onsets b hne) ▸ hd⟩]
        simpa using ih
      · rw [if_neg hd,
          if_neg (by
            rw [not_and]
            intro _
            exact (abs_closestOnset onsets b hne) ▸ hd), ih]

/-- C6: matching is independent per beat — the timing-error list is exactly a
per-beat filterMap that emits `(closest - beat) * 1000` iff some onset exists
and the nearest onset over the entire onset list lies within tolerance
(`minAbsDist` is the distance to the nearest onset, a lower bound over every
onset); every emitted error satisfies `|error| ≤ tolerance * 1000`; an empty
onset list yields no matches and no error; and one onset can be matched to
two different beats. -/
theorem match_onsets_to_beats_spec (onsets beats : List ℚ) (tolerance : ℚ) :
    ((match_onsets_to_beats onsets beats tolerance).1 =
        beats.filterMap fun b =>
          if onsets.length ≠ 0 ∧ minAbsDist onsets b ≤ tolerance then
            some ((closestOnset onsets b - b) * 1000)
          else none) ∧
      (∀ b o, o ∈ onsets → minAbsDist onsets b ≤ |o - b|) ∧
      (∀ e ∈ (match_onsets_to_beats onsets beats tolerance).1,
        |e| ≤ tolerance * 1000) ∧
      match_onsets_to_beats [] beats tolerance = ([], []) ∧
      (match_onsets_to_beats [1 / 2] [2 / 5, 3 / 5] (3 / 20)).2 =
        [1 / 2, 1 / 2] := by
  refine ⟨match_fst_eq onsets beats tolerance,
    fun b o ho => minAbsDist_le onsets b o ho, ?_, match_onsets_to_beats_nil
      beats tolerance, ?_⟩
  · intro e he
    rw [match_fst_eq] at he
    rcases List.mem_filterMap.mp he with ⟨b, _, hb⟩
    by_cases hc : onsets.length ≠ 0 ∧ minAbsDist onsets b ≤ tolerance
    · rw [if_pos hc, Option.some_inj] at hb
      have hne : onsets ≠ [] := by
        intro hx
        exact hc.1 (by simp [hx])
      have habs : |closestOnset onsets b - b| ≤ tolerance :=
        (abs_closestOnset onsets b hne) ▸ hc.2
      rw [← hb, abs_mul]
      calc |closestOnset onsets b - b| * |(1000 : ℚ)|
          = |closestOnset onsets b - b| * 1000 := by norm_num
        _ ≤ tolerance * 1000 :=
            mul_le_mul_of_nonneg_right habs (by norm_num)
    · rw [if_neg hc] at hb
      exact absurd hb (by simp)
  · have h110 : |(10 : ℚ)⁻¹| ≤ 3 / 20 := by
      rw [abs_of_pos (by norm_num : (0 : ℚ) < (10 : ℚ)⁻¹)]
      norm_num
    norm_num [match_onsets_to_beats, closestOnset]
    simp [h110]

/-- Witness for `match_onsets_to_beats_spec`: the nearest-onset distance is a
lower bound at a concrete onset and beat. -/
theorem match_onsets_to_beats_spec_holds :
    ((1 : ℚ) / 2 ∈ [(1 : ℚ) / 2]) ∧
      minAbsDist [(1 : ℚ) / 2] (2 / 5) ≤ |(1 : ℚ) / 2 - 2 / 5| :=
  ⟨by simp,
    (match_onsets_to_beats_spec [(1 : ℚ) / 2] [] 0).2.1 (2 / 5) (1 / 2)
      (by simp)⟩

/-! ## C9 — timing statistics aggregator -/

theorem count_true_map_decide (p : ℚ → Prop) [DecidablePred p] (l : List ℚ) :
    (l.map fun e => decide (p e)).count true = l.countP fun e => decide (p e) := by
  induction l with
  | nil => rfl
  | cons x xs ih =>
    simp only [List.map_cons, List.count_cons, List.countP_cons, ih]
    by_cases h : p x <;> simp [h]

/-- C9: the aggregator counts as early exactly the errors `< 0`, as late
exactly the errors `> 0`, and as on-time exactly the errors with `|e| < 10`
(strict); on the spec's exact-match scenario (`Events = [0.51]`,
`BeatGrid = [0.5]`, tolerance `0.15`) there is one match with error `+10` ms,
mean `+10`, one late hit, and zero on-time and early hits. -/
theorem timing_statistics_spec :
    (∀ errs : List ℚ, errs ≠ [] →
        early_hits errs = errs.countP (fun e => decide (e < 0)) ∧
        late_hits errs = errs.countP (fun e => decide (0 < e)) ∧
        on_time_hits errs = errs.countP (fun e => decide (|e| < 10))) ∧
      (match_onsets_to_beats [51 / 100] [1 / 2] (3 / 20)).1 = [10] ∧
      avg_error (match_onsets_to_beats [51 / 100] [1 / 2] (3 / 20)).1 = 10 ∧
      late_hits (match_onsets_to_beats [51 / 100] [1 / 2] (3 / 20)).1 = 1 ∧
      on_time_hits (match_onsets_to_beats [51 / 100] [1 / 2] (3 / 20)).1 = 0 ∧
      early_hits (match_onsets_to_beats [51 / 100] [1 / 2] (3 / 20)).1 = 0 := by
  have hE : (match_onsets_to_beats [51 / 100] [1 / 2] (3 / 20)).1 = [10] := by
    have h1100 : |(100 : ℚ)⁻¹| ≤ 3 / 20 := by
      rw [abs_of_pos (by norm_num : (0 : ℚ) < (100 : ℚ)⁻¹)]
      norm_num
    norm_num [match_onsets_to_beats, closestOnset]
    simp [h1100]
  have hlt : decide ((0 : ℚ) < 10) = true := by norm_num
  have hab : decide (|(10 : ℚ)| < 10) = false := by norm_num
  have hneg : decide ((10 : ℚ) < 0) = false := by norm_num
  refine ⟨?_, hE, ?_, ?_, ?_, ?_⟩
  · intro errs _
    exact ⟨count_true_map_decide _ errs, count_true_map_decide _ errs,
      count_true_map_decide _ errs⟩
  · rw [hE]
    norm_num [avg_error]
  · rw [hE]
    simp [late_hits, hlt]
  · rw [hE]
    simp [on_time_hits, hab]
  · rw [hE]
    simp [early_hits, hneg]

/-- Witness for `timing_statistics_spec` on the one-element error list `[5]`. -/
theorem timing_statistics_spec_holds :
    ([(5 : ℚ)] ≠ []) ∧
      (early_hits [(5 : ℚ)] = [(5 : ℚ)].countP (fun e => decide (e < 0)) ∧
        late_hits [(5 : ℚ)] = [(5 : ℚ)].countP (fun e => decide (0 < e)) ∧
        on_time_hits [(5 : ℚ)] =
          [(5 : ℚ)].countP (fun e => decide (|e| < 10))) :=
  ⟨by simp, timing_statistics_spec.1 [(5 : ℚ)] (by simp)⟩

/-! ## Peak picker lemmas -/

theorem insertDesc_perm (x : ℕ × ℚ) (l : List (ℕ × ℚ)) :
    (insertDesc x l).Perm (x :: l) := by
  induction l with
  | nil => rfl
  | cons y ys ih =>
    rw [insertDesc]
    split
    · rfl
    · exact (List.Perm.cons y ih).trans (List.Perm.swap x y ys)

theorem sortDesc_perm (l : List (ℕ × ℚ)) : (sortDesc l).Perm l := by
  induction l with
  | nil => rfl
  | cons x xs ih => exact (insertDesc_perm x (sortDesc xs)).trans (ih.cons x)

theorem insertLex_perm (x : ℕ × ℚ) (l : List (ℕ × ℚ)) :
    (insertLex x l).Perm (x :: l) := by
  induction l with
  | nil => rfl
  | cons y ys ih =>
    rw [insertLex]
    split
    · rfl
    · exact (List.Perm.cons y ih).trans (List.Perm.swap x y ys)

theorem sortLex_perm (l : List (ℕ × ℚ)) : (sortLex l).Perm l := by
  induction l with
  | nil => rfl
  | cons x xs ih => exact (insertLex_perm x (sortLex xs)).trans (ih.cons x)

theorem insertAsc_perm (x : ℕ) (l : List ℕ) : (insertAsc x l).Perm (x :: l) := by
  induction l with
  | nil => rfl
  | cons y ys ih =>
    rw [insertAsc]
    split
    · rfl
    · exact (List.Perm.cons y ih).trans (List.Perm.swap x y ys)

theorem sortAsc_perm (l : List ℕ) : (sortAsc l).Perm l := by
  induction l with
  | nil => rfl
  | cons x xs ih => exact (insertAsc_perm x (sortAsc xs)).trans (ih.cons x)

theorem insertAsc_sorted (x : ℕ) (l : List ℕ) (h : l.Pairwise (· ≤ ·)) :
    (insertAsc x l).Pairwise (· ≤ ·) := by
  induction l with
  | nil => simp [insertAsc]
  | cons y ys ih =>
    rcases List.pairwise_cons.mp h with ⟨hy, hys⟩
    rw [insertAsc]
    split
    · next hxy =>
      refine List.pairwise_cons.mpr ⟨?_, h⟩
      intro z hz
      rcases List.mem_cons.mp hz with rfl | hz
      · exact hxy
      · exact le_trans hxy (hy z hz)
    · next hxy =>
      have hyx : y ≤ x := le_of_not_le hxy
      refine List.pairwise_cons.mpr ⟨?_, ih hys⟩
      intro z hz
      rcases List.mem_cons.mp ((insertAsc_perm x ys).mem_iff.mp hz) with rfl | hz2
      · exact hyx
      · exact hy z hz2

theorem sortAsc_sorted (l : List ℕ) : (sortAsc l).Pairwise (· ≤ ·) := by
  induction l with
  | nil => exact List.Pairwise.nil
  | cons x xs ih => exact insertAsc_sorted x (sortAsc xs) ih

theorem range'_pairwise_lt (s n : ℕ) : (List.range' s n).Pairwise (· < ·) := by
  induction n generalizing s with
  | zero => simp
  | succ n ih =>
    rw [List.range'_succ]
    refine List.pairwise_cons.mpr ⟨?_, ih (s + 1)⟩
    intro y hy
    have := (List.mem_range'_1.mp hy).1
    omega

theorem pairwise_fst_filterMap (g : ℕ → Option (ℕ × ℚ))
    (hg : ∀ i p, g i = some p → p.1 = i) :
    ∀ l : List ℕ, l.Pairwise (· < ·) →
      (l.filterMap g).Pairwise fun a b => a.1 < b.1 := by
  intro l
  induction l with
  | nil => intro _; simp
  | cons x xs ih =>
    intro h
    rcases List.pairwise_cons.mp h with ⟨hx, hxs⟩
    rw [List.filterMap_cons]
    cases hgx : g x with
    | none => exact ih hxs
    | some p =>
      refine List.pairwise_cons.mpr ⟨?_, ih hxs⟩
      intro q hq
      rcases List.mem_filterMap.mp hq with ⟨a, ha, hga⟩
      rw [hg x p hgx, hg a q hga]
      exact hx a ha

theorem candidates_pairwise (onset_env : List ℚ) (t : ℚ) :
    (candidates onset_env t).Pairwise fun a b => a.1 < b.1 := by
  refine pairwise_fst_filterMap _ ?_ _ (range'_pairwise_lt 1 _)
  intro i p hp
  by_cases hc : t ≤ onset_env.getD i 0 ∧
      onset_env.getD (i - 1) 0 < onset_env.getD i 0 ∧
      onset_env.getD (i + 1) 0 ≤ onset_env.getD i 0
  · rw [if_pos hc] at hp
    rw [← Option.some_inj.mp hp]
  · rw [if_neg hc] at hp
    exact absurd hp (by simp)

theorem tooClose_iff (mf : ℤ) (f : ℕ) (sel : List ℕ) :
    tooClose mf f sel = true ↔ ∃ a ∈ sel, |(f : ℤ) - (a : ℤ)| < mf := by
  simp [tooClose, List.any_eq_true]

theorem insertDesc_eq_insertLex (x : ℕ × ℚ) (l : List (ℕ × ℚ))
    (h : ∀ y ∈ l, x.1 < y.1) : insertDesc x l = insertLex x l := by
  induction l with
  | nil => rfl
  | cons y ys ih =>
    have hxy : x.1 < y.1 := h y (List.mem_cons_self y ys)
    have hiff : y.2 ≤ x.2 ↔ specBefore x y := by
      unfold specBefore
      constructor
      · intro hle
        rcases lt_or_eq_of_le hle with hlt | heq
        · exact Or.inl hlt
        · exact Or.inr ⟨heq.symm, hxy⟩
      · rintro (hlt | ⟨heq, _⟩)
        · exact le_of_lt hlt
        · exact le_of_eq heq.symm
    rw [insertDesc, insertLex]
    by_cases hc : y.2 ≤ x.2
    · rw [if_pos hc, if_pos (hiff.mp hc)]
    · rw [if_neg hc, if_neg fun hs => hc (hiff.mpr hs),
        ih fun z hz => h z (List.mem_cons_of_mem y hz)]

theorem sortDesc_eq_sortLex (l : List (ℕ × ℚ))
    (h : l.Pairwise fun a b => a.1 < b.1) : sortDesc l = sortLex l := by
  induction l with
  | nil => rfl
  | cons x xs ih =>
    rcases List.pairwise_cons.mp h with ⟨hx, hxs⟩
    rw [sortDesc, sortLex, ih hxs]
    exact insertDesc_eq_insertLex x (sortLex xs) fun y hy =>
      hx y ((sortLex_perm xs).mem_iff.mp hy)

theorem selectGo_eq_nmsGo (mf : ℤ) (cs : List (ℕ × ℚ)) :
    ∀ sel : List ℕ, selectGo mf cs sel = nmsGo mf sel (cs.map Prod.fst) := by
  induction cs with
  | nil => intro sel; rfl
  | cons c cs ih =>
    intro sel
    rw [List.map_cons, selectGo, nmsGo]
    by_cases h : ∃ a ∈ sel, |(c.1 : ℤ) - (a : ℤ)| < mf
    · rw [if_pos ((tooClose_iff mf c.1 sel).mpr h), if_pos h, ih]
    · rw [if_neg fun hx => h ((tooClose_iff mf c.1 sel).mp hx), if_neg h, ih]

theorem selectGo_sublist (mf : ℤ) (cs : List (ℕ × ℚ)) :
    ∀ sel, ∃ t, t.Sublist (cs.map Prod.fst) ∧ selectGo mf cs sel = sel ++ t := by
  induction cs with
  | nil => exact fun sel => ⟨[], by simp, by simp [selectGo]⟩
  | cons c cs ih =>
    intro sel
    rw [selectGo, List.map_cons]
    by_cases h : tooClose mf c.1 sel = true
    · rw [if_pos h]
      rcases ih sel with ⟨t, ht, he⟩
      exact ⟨t, ht.cons _, he⟩
    · rw [if_neg h]
      rcases ih (sel ++ [c.1]) with ⟨t, ht, he⟩
      exact ⟨c.1 :: t, ht.cons₂ _, by rw [he]; simp⟩

theorem selectGo_pairwise_sep (mf : ℤ) (cs : List (ℕ × ℚ)) :
    ∀ sel, sel.Pairwise (farApart mf) →
      (selectGo mf cs sel).Pairwise (farApart mf) := by
  induction cs with
  | nil => exact fun sel h => h
  | cons c cs ih =>
    intro sel h
    rw [selectGo]
    by_cases hb : tooClose mf c.1 sel = true
    · rw [if_pos hb]
      exact ih sel h
    · rw [if_neg hb]
      apply ih
      rw [List.pairwise_append]
      refine ⟨h, by simp, ?_⟩
      intro a ha b hb2
      have hb1 : b = c.1 := by simpa using hb2
      subst hb1
      have hno : ¬ ∃ s ∈ sel, |(c.1 : ℤ) - (s : ℤ)| < mf :=
        fun hx => hb ((tooClose_iff mf c.1 sel).mpr hx)
      push_neg at hno
      rw [farApart, abs_sub_comm]
      exact hno a ha

theorem mem_candidates (onset_env : List ℚ) (t : ℚ) (i : ℕ) (v : ℚ)
    (h : (i, v) ∈ candidates onset_env t) :
    1 ≤ i ∧ i + 1 < onset_env.length ∧
      t ≤ onset_env.getD i 0 ∧
      onset_env.getD (i - 1) 0 < onset_env.getD i 0 ∧
      onset_env.getD (i + 1) 0 ≤ onset_env.getD i 0 := by
  rcases List.mem_filterMap.mp h with ⟨a, ha, hfa⟩
  have hrange := List.mem_range'_1.mp ha
  by_cases hc : t ≤ onset_env.getD a 0 ∧
      onset_env.getD (a - 1) 0 < onset_env.getD a 0 ∧
      onset_env.getD (a + 1) 0 ≤ onset_env.getD a 0
  · rw [if_pos hc] at hfa
    have hai : a = i := congrArg Prod.fst (Option.some_inj.mp hfa)
    subst hai
    exact ⟨hrange.1, by omega, hc.1, hc.2.1, hc.2.2⟩
  · rw [if_neg hc] at hfa
    exact absurd hfa (by simp)

theorem mem_pick_peaks_frames (onset_env : List ℚ) (threshold : ℚ)
    (sr hop_length : ℕ) (min_separation_ms strength_multiplier : ℚ) (i : ℕ)
    (hi : i ∈ (pick_peaks onset_env threshold sr hop_length min_separation_ms
      strength_multiplier).2) :
    ∃ v, (i, v) ∈ candidates onset_env (threshold * strength_multiplier) := by
  have hstep : (pick_peaks onset_env threshold sr hop_length min_separation_ms
      strength_multiplier).2 =
        sortAsc (selectFrames (minFramesOf min_separation_ms sr hop_length)
          (sortDesc (candidates onset_env
            (threshold * strength_multiplier)))) := rfl
  rw [hstep] at hi
  have h1 : i ∈ selectFrames (minFramesOf min_separation_ms sr hop_length)
      (sortDesc (candidates onset_env (threshold * strength_multiplier))) :=
    (sortAsc_perm _).mem_iff.mp hi
  rcases selectGo_sublist (minFramesOf min_separation_ms sr hop_length)
      (sortDesc (candidates onset_env (threshold * strength_multiplier))) []
    with ⟨u, hu, he⟩
  rw [selectFrames] at h1
  rw [he] at h1
  have h2 : i ∈ (sortDesc (candidates onset_env
      (threshold * strength_multiplier))).map Prod.fst :=
    hu.subset (by simpa using h1)
  have h3 : i ∈ (candidates onset_env
      (threshold * strength_multiplier)).map Prod.fst :=
    ((sortDesc_perm _).map Prod.fst).mem_iff.mp h2
  rcases List.mem_map.mp h3 with ⟨p, hp, hpi⟩
  subst hpi
  exact ⟨p.2, hp⟩

/-- Concrete run of the peak picker: envelope `[0, 5, 0, 9, 0]`, threshold 1,
multiplier 3/2, `min_frames = 3`.  Both interior local maxima (frame 1,
strength 5; frame 3, strength 9) are candidates; the stronger later peak at
frame 3 is accepted first and suppresses the weaker earlier peak at frame 1. -/
theorem pick_peaks_example :
    (pick_peaks [0, 5, 0, 9, 0] 1 100 100 3000 (3 / 2)).2 = [3] := by
  have hmf : minFramesOf 3000 100 100 = 3 := by
    rw [minFramesOf, ratTrunc_of_nonneg (by positivity)]
    norm_num
  have hr : List.range' 1 ([(0 : ℚ), 5, 0, 9, 0].length - 2) = [1, 2, 3] := by
    rfl
  have hc : candidates [0, 5, 0, 9, 0] (1 * (3 / 2)) = [(1, 5), (3, 9)] := by
    unfold candidates
    rw [hr]
    norm_num [List.filterMap_cons, List.getD_cons_zero, List.getD_cons_succ]
  have hs : sortDesc [((1 : ℕ), (5 : ℚ)), (3, 9)] = [(3, 9), (1, 5)] := by
    rw [sortDesc, sortDesc, sortDesc, insertDesc, insertDesc,
      if_neg (by norm_num : ¬ ((9 : ℚ) ≤ 5)), insertDesc]
  have hsel : selectFrames 3 [((3 : ℕ), (9 : ℚ)), (1, 5)] = [3] := by
    have h1 : tooClose 3 3 [] = false := rfl
    have h2 : tooClose 3 1 [3] = true := by decide
    rw [selectFrames, selectGo, h1]
    rw [if_neg (by simp : ¬ (false = true)), selectGo]
    simp only [List.nil_append]
    rw [h2, if_pos rfl, selectGo]
  have hstep : (pick_peaks [0, 5, 0, 9, 0] 1 100 100 3000 (3 / 2)).2 =
      sortAsc (selectFrames (minFramesOf 3000 100 100)
        (sortDesc (candidates [0, 5, 0, 9, 0] (1 * (3 / 2))))) := rfl
  rw [hstep, hmf, hc, hs, hsel]
  rfl

/-! ## C1 — greedy strongest-first non-maximum suppression -/

/-- C1: the Peak Picker's selection equals the spec's greedy strongest-first
non-maximum suppression: candidates ordered by strength descending with ties
broken by earliest frame index (`sortLex` of `specBefore`; the source's stable
sort by strength alone coincides with it), a candidate rejected iff its frame
distance to some already-accepted candidate is `< minFrames` (`nmsGo`), then
sorted chronologically.  In the concrete run the weaker early candidate
(frame 1) is suppressed by the stronger later candidate (frame 3) inside its
exclusion window. -/
theorem pick_peaks_strongest_first (onset_env : List ℚ) (threshold : ℚ)
    (sr hop_length : ℕ) (min_separation_ms strength_multiplier : ℚ) :
    (pick_peaks onset_env threshold sr hop_length min_separation_ms
        strength_multiplier).2 =
      sortAsc (specSelect (minFramesOf min_separation_ms sr hop_length)
        (candidates onset_env (threshold * strength_multiplier))) ∧
    (pick_peaks [0, 5, 0, 9, 0] 1 100 100 3000 (3 / 2)).2 = [3] := by
  constructor
  · have hstep : (pick_peaks onset_env threshold sr hop_length
        min_separation_ms strength_multiplier).2 =
          sortAsc (selectFrames (minFramesOf min_separation_ms sr hop_length)
            (sortDesc (candidates onset_env
              (threshold * strength_multiplier)))) := rfl
    rw [hstep, specSelect, selectFrames, selectGo_eq_nmsGo,
      sortDesc_eq_sortLex _ (candidates_pairwise _ _)]
  · exact pick_peaks_example

/-! ## C2 — candidate soundness and empty envelopes -/

/-- C2: every frame emitted by the Peak Picker (at the source's strength
multiplier 1.5) is an interior frame `1 ≤ i`, `i + 1 < len`, is a strict
local maximum on the left, `≥` its right neighbor, and clears the peak
threshold `threshold * 1.5`; an envelope of length `< 3` yields
no events at all. -/
theorem pick_peaks_events_sound (onset_env : List ℚ) (threshold : ℚ)
    (sr hop_length : ℕ) (min_separation_ms : ℚ) :
    (∀ i ∈ (pick_peaks onset_env threshold sr hop_length min_separation_ms
        (3 / 2)).2,
      1 ≤ i ∧ i + 1 < onset_env.length ∧
        onset_env.getD (i - 1) 0 < onset_env.getD i 0 ∧
        onset_env.getD (i + 1) 0 ≤ onset_env.getD i 0 ∧
        threshold * (3 / 2) ≤ onset_env.getD i 0) ∧
    (onset_env.length < 3 →
      pick_peaks onset_env threshold sr hop_length min_separation_ms (3 / 2) =
        ([], [])) := by
  constructor
  · intro i hi
    rcases mem_pick_peaks_frames onset_env threshold sr hop_length
      min_separation_ms (3 / 2) i hi with ⟨v, hv⟩
    rcases mem_candidates onset_env (threshold * (3 / 2)) i v hv with
      ⟨h1, h2, h3, h4, h5⟩
    exact ⟨h1, h2, h4, h5, h3⟩
  · intro hlen
    have h2 : onset_env.length - 2 = 0 := by omega
    have hcand : candidates onset_env (threshold * (3 / 2)) = [] := by
      unfold candidates
      rw [h2]
      rfl
    have hstep : pick_peaks onset_env threshold sr hop_length
        min_separation_ms (3 / 2) =
          ((sortAsc (selectFrames (minFramesOf min_separation_ms sr hop_length)
              (sortDesc (candidates onset_env (threshold * (3 / 2)))))).map
            fun f : ℕ => (f : ℚ) * (hop_length : ℚ) / (sr : ℚ),
           sortAsc (selectFrames (minFramesOf min_separation_ms sr hop_length)
             (sortDesc (candidates onset_env (threshold * (3 / 2)))))) := rfl
    rw [hstep, hcand]
    rfl

/-- Witness for `pick_peaks_events_sound`: frame 3 of the concrete run is an
interior strict-left local maximum clearing the peak threshold, and an
envelope of length 2 produces no events. -/
theorem pick_peaks_events_sound_holds :
    (3 ∈ (pick_peaks [0, 5, 0, 9, 0] 1 100 100 3000 (3 / 2)).2 ∧
      (1 ≤ 3 ∧ 3 + 1 < [(0 : ℚ), 5, 0, 9, 0].length ∧
        [(0 : ℚ), 5, 0, 9, 0].getD (3 - 1) 0 < [(0 : ℚ), 5, 0, 9, 0].getD 3 0 ∧
        [(0 : ℚ), 5, 0, 9, 0].getD (3 + 1) 0 ≤ [(0 : ℚ), 5, 0, 9, 0].getD 3 0 ∧
        (1 : ℚ) * (3 / 2) ≤ [(0 : ℚ), 5, 0, 9, 0].getD 3 0)) ∧
    (([(0 : ℚ), 5].length < 3) ∧
      pick_peaks [0, 5] 1 100 100 3000 (3 / 2) = ([], [])) := by
  have hmem : 3 ∈ (pick_peaks [0, 5, 0, 9, 0] 1 100 100 3000 (3 / 2)).2 := by
    rw [pick_peaks_example]
    exact List.mem_singleton.mpr rfl
  exact ⟨⟨hmem,
      (pick_peaks_events_sound [0, 5, 0, 9, 0] 1 100 100 3000).1 3 hmem⟩,
    ⟨by norm_num,
      (pick_peaks_events_sound [0, 5] 1 100 100 3000).2 (by norm_num)⟩⟩

/-! ## C4 — output ordering and temporal separation -/

/-- C4: for positive sample rate and hop and nonnegative minimum separation,
the Peak Picker's time list is the frame list mapped through
`frame * hop / sr`, is strictly increasing, and consecutive times differ by
at least `min_separation_ms / 1000 - hop / sr` (the claimed separation up to
one hop of rounding tolerance). -/
theorem pick_peaks_separation (onset_env : List ℚ) (threshold : ℚ)
    (sr hop_length : ℕ) (min_separation_ms strength_multiplier : ℚ)
    (hsr : 0 < sr) (hhop : 0 < hop_length) (hms : 0 ≤ min_separation_ms) :
    (pick_peaks onset_env threshold sr hop_length min_separation_ms
        strength_multiplier).1 =
      (pick_peaks onset_env threshold sr hop_length min_separation_ms
        strength_multiplier).2.map
        (fun f : ℕ => (f : ℚ) * (hop_length : ℚ) / (sr : ℚ)) ∧
    (pick_peaks onset_env threshold sr hop_length min_separation_ms
        strength_multiplier).1.Chain' (· < ·) ∧
    (pick_peaks onset_env threshold sr hop_length min_separation_ms
        strength_multiplier).1.Chain'
      (fun a b => min_separation_ms / 1000 - (hop_length : ℚ) / (sr : ℚ) ≤
        b - a) := by
  have hsrq : (0 : ℚ) < (sr : ℚ) := by exact_mod_cast hsr
  have hhopq : (0 : ℚ) < (hop_length : ℚ) := by exact_mod_cast hhop
  have hstep2 : (pick_peaks onset_env threshold sr hop_length min_separation_ms
      strength_multiplier).2 =
        sortAsc (selectFrames (minFramesOf min_separation_ms sr hop_length)
          (sortDesc (candidates onset_env
            (threshold * strength_multiplier)))) := rfl
  have hstep1 : (pick_peaks onset_env threshold sr hop_length min_separation_ms
      strength_multiplier).1 =
        (sortAsc (selectFrames (minFramesOf min_separation_ms sr hop_length)
          (sortDesc (candidates onset_env
            (threshold * strength_multiplier))))).map
          (fun f : ℕ => (f : ℚ) * (hop_length : ℚ) / (sr : ℚ)) := rfl
  set mf := minFramesOf min_separation_ms sr hop_length with hmf
  set cands := candidates onset_env (threshold * strength_multiplier) with hcands
  -- distinctness of the selected frames
  have hpw : cands.Pairwise fun a b => a.1 < b.1 := candidates_pairwise _ _
  have hnodup_map : (cands.map Prod.fst).Nodup :=
    (List.pairwise_map.mpr hpw).imp ne_of_lt
  have hnodup_sorted : ((sortDesc cands).map Prod.fst).Nodup :=
    (((sortDesc_perm cands).map Prod.fst).nodup_iff).mpr hnodup_map
  have hnodup_sel : (selectFrames mf (sortDesc cands)).Nodup := by
    rcases selectGo_sublist mf (sortDesc cands) [] with ⟨t, ht, he⟩
    rw [selectFrames, he, List.nil_append]
    exact hnodup_sorted.sublist ht
  have hnodup_chron : (sortAsc (selectFrames mf (sortDesc cands))).Nodup :=
    ((sortAsc_perm _).nodup_iff).mpr hnodup_sel
  -- strict chronological order
  have hlt : (sortAsc (selectFrames mf (sortDesc cands))).Pairwise (· < ·) :=
    List.Sorted.lt_of_le (sortAsc_sorted _) hnodup_chron
  -- pairwise frame separation, transported along the chronological sort
  have hsymm : ∀ {x y : ℕ}, farApart mf x y → farApart mf y x := by
    intro x y hxy
    rw [farApart, abs_sub_comm]
    exact hxy
  have hsep_sel : (selectFrames mf (sortDesc cands)).Pairwise (farApart mf) :=
    selectGo_pairwise_sep mf (sortDesc cands) [] List.Pairwise.nil
  have hsep : (sortAsc (selectFrames mf (sortDesc cands))).Pairwise
      (farApart mf) :=
    ((sortAsc_perm _).pairwise_iff hsymm).mpr hsep_sel
  have hboth := hlt.and hsep
  -- the key numeric bound, for any chronologically ordered separated pair
  have hkey : ∀ a b : ℕ, a < b → farApart mf a b →
      min_separation_ms / 1000 - (hop_length : ℚ) / (sr : ℚ) ≤
        (b : ℚ) * (hop_length : ℚ) / (sr : ℚ) -
          (a : ℚ) * (hop_length : ℚ) / (sr : ℚ) := by
    intro a b hab hfar
    have habq : (a : ℚ) < (b : ℚ) := by exact_mod_cast hab
    have habz : (a : ℤ) < (b : ℤ) := by exact_mod_cast hab
    have hfar2 : mf ≤ (b : ℤ) - (a : ℤ) := by
      have := hsymm hfar
      rwa [farApart, abs_of_nonneg (by omega)] at this
    have hfarq : (mf : ℚ) ≤ (b : ℚ) - (a : ℚ) := by exact_mod_cast hfar2
    have hx0 : (0 : ℚ) ≤ min_separation_ms / 1000 * (sr : ℚ) /
        (hop_length : ℚ) := by positivity
    have hfloor : mf = ⌊min_separation_ms / 1000 * (sr : ℚ) /
        (hop_length : ℚ)⌋ := by
      rw [hmf, minFramesOf, ratTrunc_of_nonneg hx0]
    have hlt1 : min_separation_ms / 1000 * (sr : ℚ) / (hop_length : ℚ) <
        ((b : ℚ) - (a : ℚ)) + 1 := by
      calc min_separation_ms / 1000 * (sr : ℚ) / (hop_length : ℚ) <
          (⌊min_separation_ms / 1000 * (sr : ℚ) / (hop_length : ℚ)⌋ : ℚ) + 1 :=
            Int.lt_floor_add_one _
        _ = (mf : ℚ) + 1 := by rw [hfloor]
        _ ≤ ((b : ℚ) - (a : ℚ)) + 1 := by linarith
    have hratio : (0 : ℚ) < (hop_length : ℚ) / (sr : ℚ) :=
      div_pos hhopq hsrq
    have hmul := mul_lt_mul_of_pos_right hlt1 hratio
    have hms_eq : min_separation_ms / 1000 * (sr : ℚ) / (hop_length : ℚ) *
        ((hop_length : ℚ) / (sr : ℚ)) = min_separation_ms / 1000 := by
      field_simp
      ring
    rw [hms_eq] at hmul
    have hexp : ((b : ℚ) - (a : ℚ) + 1) * ((hop_length : ℚ) / (sr : ℚ)) =
        ((b : ℚ) * (hop_length : ℚ) / (sr : ℚ) -
          (a : ℚ) * (hop_length : ℚ) / (sr : ℚ)) +
          (hop_length : ℚ) / (sr : ℚ) := by
      ring
    rw [hexp] at hmul
    linarith
  refine ⟨hstep1.trans (by rw [hstep2]), ?_, ?_⟩
  · rw [hstep1]
    refine List.Pairwise.chain' (List.pairwise_map.mpr (hlt.imp ?_))
    intro a b hab
    have habq : (a : ℚ) < (b : ℚ) := by exact_mod_cast hab
    have hratio : (0 : ℚ) < (hop_length : ℚ) / (sr : ℚ) :=
      div_pos hhopq hsrq
    calc (a : ℚ) * (hop_length : ℚ) / (sr : ℚ)
        = (a : ℚ) * ((hop_length : ℚ) / (sr : ℚ)) := by ring
      _ < (b : ℚ) * ((hop_length : ℚ) / (sr : ℚ)) :=
          mul_lt_mul_of_pos_right habq hratio
      _ = (b : ℚ) * (hop_length : ℚ) / (sr : ℚ) := by ring
  · rw [hstep1]
    refine List.Pairwise.chain' (List.pairwise_map.mpr (hboth.imp ?_))
    intro a b hab
    exact hkey a b hab.1 hab.2

/-- Witness for `pick_peaks_separation` on the concrete run. -/
theorem pick_peaks_separation_holds :
    (0 < 100 ∧ 0 < 100 ∧ (0 : ℚ) ≤ 3000) ∧
      (pick_peaks [(0 : ℚ), 5, 0, 9, 0] 1 100 100 3000 (3 / 2)).1 =
        (pick_peaks [(0 : ℚ), 5, 0, 9, 0] 1 100 100 3000 (3 / 2)).2.map
          (fun f : ℕ => (f : ℚ) * (100 : ℚ) / (100 : ℚ)) ∧
      (pick_peaks [(0 : ℚ), 5, 0, 9, 0] 1 100 100 3000 (3 / 2)).1.Chain'
        (· < ·) :=
  ⟨⟨by norm_num, by norm_num, by norm_num⟩,
    ((pick_peaks_separation [(0 : ℚ), 5, 0, 9, 0] 1 100 100 3000 (3 / 2)
        (by norm_num) (by norm_num) (by norm_num)).1),
    ((pick_peaks_separation [(0 : ℚ), 5, 0, 9, 0] 1 100 100 3000 (3 / 2)
        (by norm_num) (by norm_num) (by norm_num)).2.1)⟩

end RhythmCoach
